import Mathlib

/-!
Verification development for the bookmark extraction subsystem of
branchwag/bookmark-analyzer (src/browser.rs), as a shallow embedding:
pure Lean functions mirror the Rust functions, external effects
(command invocation, file reads, the SQLite store, the temp-file state)
are passed in explicitly as values.
-/

namespace BookmarkAnalyzer

/-! ## String primitives mirroring the Rust `str` operations used -/

/-- Model of `str::starts_with` at the character-list level:
`listPrefixOf pat s` is true when `pat` is a prefix of `s`. -/
def listPrefixOf : List Char → List Char → Bool
  | [], _ => true
  | _ :: _, [] => false
  | p :: ps, c :: cs => p == c && listPrefixOf ps cs

/-- Model of `str::contains` (substring search) at the character-list level. -/
def listContains : List Char → List Char → Bool
  | [], pat => listPrefixOf pat []
  | c :: t, pat => listPrefixOf pat (c :: t) || listContains t pat

/-- Model of `str::contains` for strings. -/
def strContains (s pat : String) : Bool :=
  listContains s.data pat.data

/-- Model of `str::starts_with` for strings. -/
def strStartsWith (s pre : String) : Bool :=
  listPrefixOf pre.data s.data

/-- Model of `str::to_lowercase` (per-character ASCII lowering; the
tokens matched by detection are ASCII). -/
def lowerStr (s : String) : String :=
  String.mk (s.data.map Char.toLower)

/-- Removes one trailing carriage return, as `str::lines` does on each
line terminated by a newline. -/
def stripCR (l : List Char) : List Char :=
  match l.getLast? with
  | some c => if c == '\r' then l.dropLast else l
  | none => l

/-- Accumulator pass for `str::lines`: split at every newline, strip a
trailing carriage return from terminated lines, keep a final unterminated
segment as-is, and produce no line for the empty input. -/
def linesAux : List Char → List Char → List (List Char)
  | [], [] => []
  | [], cur => [cur.reverse]
  | c :: t, cur =>
    if c == '\n' then stripCR cur.reverse :: linesAux t []
    else linesAux t (c :: cur)

/-- Model of Rust `str::lines`. -/
def rustLines (s : String) : List String :=
  (linesAux s.data []).map String.mk

/-- Fuel-indexed repeated prefix stripping.  Each successful strip removes
at least one character, so fuel equal to the length of the subject string
makes the function total and faithful to `str::trim_start_matches`. -/
def trimAllAux : Nat → List Char → List Char → List Char
  | 0, s, _ => s
  | Nat.succ fuel, s, pat =>
    if !pat.isEmpty && listPrefixOf pat s then trimAllAux fuel (s.drop pat.length) pat
    else s

/-- Model of `str::trim_start_matches` with a string pattern: repeatedly
strips the pattern from the front while it is a prefix. -/
def strTrimPrefixAll (s pat : String) : String :=
  String.mk (trimAllAux s.data.length s.data pat.data)

/-- Model of `PathBuf::join` on Unix: an absolute right operand replaces
the path, otherwise a separator is inserted unless the left operand is
empty or already ends in a separator.  In particular joining the empty
string appends a single trailing separator. -/
def pathJoin (d p : String) : String :=
  if strStartsWith p "/" then p
  else if d.data.isEmpty then p
  else if d.data.getLast? == some '/' then d ++ p
  else d ++ "/" ++ p

/-! ## Data model -/

/-- The closed browser-family enumeration from `browser.rs`. -/
inductive Browser where
  | Chrome
  | Firefox
  | Brave
  | Edge
  | Zen
  | Unknown
deriving DecidableEq

/-- The canonical bookmark record `{name, url}`. -/
structure Bookmark where
  name : String
  url : String
deriving DecidableEq

/-- The error values the extraction subsystem can surface.  In the source
they are all `Box<dyn Error>`; string errors keep their message, the
read/JSON/SQLite error sources are distinguished by constructor. -/
inductive BmError where
  | msg (s : String)
  | ioError
  | formatError
  | copyError
  | openError
  | prepareError
  | queryError
deriving DecidableEq

/-! ## Browser detection (`Browser::detect`) -/

/-- The classification chain applied to the (lossy-decoded) stdout of
`xdg-settings get default-web-browser`, from the source: lowercase once,
then test the five tokens by substring in order. -/
def detectFromIdent (s : String) : Browser :=
  let browserStr := lowerStr s
  if strContains browserStr "zen" then Browser.Zen
  else if strContains browserStr "chrome" then Browser.Chrome
  else if strContains browserStr "firefox" then Browser.Firefox
  else if strContains browserStr "brave" then Browser.Brave
  else if strContains browserStr "edge" then Browser.Edge
  else Browser.Unknown

/-- Result of `Command::output()`: captured stdout plus the process exit
status.  `output()` only errs when the process could not be spawned or an
I/O error occurred; a non-zero exit still yields `Except.ok`. -/
structure CmdOutput where
  stdout : String
  status : Int
deriving DecidableEq

/-- Model of `Browser::detect`: on a spawn/I/O failure fall through to
`Unknown`; on any captured output classify the stdout (the exit status
field is never consulted by the source). -/
def detect (res : Except Unit CmdOutput) : Browser :=
  match res with
  | Except.ok output => detectFromIdent output.stdout
  | Except.error _ => Browser.Unknown

/-- Priority-ordered token table as the specification words it. -/
def tokenPriority : List (String × Browser) :=
  [("zen", Browser.Zen), ("chrome", Browser.Chrome), ("firefox", Browser.Firefox),
   ("brave", Browser.Brave), ("edge", Browser.Edge)]

/-- Specification-side classifier: the variant of the first token of
`tokenPriority` that occurs as a substring of the lowercased input, and
`Unknown` when none occurs. -/
def classifySpec (s : String) : Browser :=
  match tokenPriority.find? (fun tb => strContains (lowerStr s) tb.1) with
  | some tb => tb.2
  | none => Browser.Unknown

/-- Model of `Browser::bookmark_path`: resolution fails when the HOME
variable is unavailable; Chromium-family browsers get a fixed path under
home, Gecko-family browsers get the home directory itself, `Unknown`
gets nothing. -/
def bookmark_path (home : Option String) (b : Browser) : Option String :=
  match home with
  | none => none
  | some h =>
    match b with
    | Browser.Chrome => some (h ++ "/.config/google-chrome/Default/Bookmarks")
    | Browser.Brave => some (h ++ "/.config/BraveSoftware/Brave-Browser/Default/Bookmarks")
    | Browser.Edge => some (h ++ "/.config/microsoft-edge/Default/Bookmarks")
    | Browser.Firefox => some h
    | Browser.Zen => some h
    | Browser.Unknown => none

/-! ## Generic JSON values (`serde_json::Value`) -/

/-- A generic JSON value as `serde_json` exposes it.  Numbers are
irrelevant to the walk and carried as integers. -/
inductive Json where
  | null
  | bool (b : Bool)
  | num (n : Int)
  | str (s : String)
  | arr (elems : List Json)
  | obj (fields : List (String × Json))

/-- First-match association lookup, modelling `Map::get` on an object
whose keys are unique (as produced by `serde_json` parsing). -/
def lookupField : List (String × Json) → String → Option Json
  | [], _ => none
  | (k', v) :: rest, k => if k' = k then some v else lookupField rest k

/-- Model of `Value::get(key)`: field lookup on objects, `None` on every
other value shape. -/
def jGet : Json → String → Option Json
  | Json.obj fields, k => lookupField fields k
  | _, _ => none

/-- Model of `node.get(key).and_then(|v| v.as_str())`. -/
def jGetStr (node : Json) (k : String) : Option String :=
  match jGet node k with
  | some (Json.str s) => some s
  | _ => none

/-- Model of `node.get(key).and_then(|v| v.as_array())`. -/
def jGetArr (node : Json) (k : String) : Option (List Json) :=
  match jGet node k with
  | some (Json.arr l) => some l
  | _ => none

theorem lookupField_sizeOf {fields : List (String × Json)} {k : String} {v : Json}
    (h : lookupField fields k = some v) : sizeOf v < sizeOf fields := by
  induction fields with
  | nil => simp [lookupField] at h
  | cons p rest ih =>
    obtain ⟨k', v'⟩ := p
    rw [lookupField] at h
    split at h
    · cases h
      simp only [List.cons.sizeOf_spec, Prod.mk.sizeOf_spec]
      omega
    · have := ih h
      simp only [List.cons.sizeOf_spec]
      omega

theorem jGet_sizeOf {node : Json} {k : String} {v : Json}
    (h : jGet node k = some v) : sizeOf v < sizeOf node := by
  cases node <;> simp [jGet] at h
  case obj fields =>
    have := lookupField_sizeOf h
    simp only [Json.obj.sizeOf_spec]
    omega

theorem jGetArr_sizeOf {node : Json} {k : String} {l : List Json}
    (h : jGetArr node k = some l) : sizeOf l < sizeOf node := by
  rw [jGetArr] at h
  split at h
  · next heq =>
    cases h
    have := jGet_sizeOf heq
    simp only [Json.arr.sizeOf_spec] at this
    omega
  · cases h

/-! ## Chromium tree walk (`extract_bookmarks`) -/

mutual

/-- Model of `extract_bookmarks(node, &mut bookmarks)` from the source:
the accumulator is threaded explicitly, `push` appends at the end.  A
`"url"`-typed node appends one record when both `name` and `url` are
strings; a `"folder"`-typed node walks its `children` array in order;
every other shape contributes nothing and is not recursed into. -/
def extract_bookmarks (node : Json) (bookmarks : List Bookmark) : List Bookmark :=
  match jGetStr node "type" with
  | some nodeType =>
    if nodeType = "url" then
      match jGetStr node "name", jGetStr node "url" with
      | some name, some url => bookmarks ++ [⟨name, url⟩]
      | some _, none => bookmarks
      | none, _ => bookmarks
    else if nodeType = "folder" then
      match h : jGetArr node "children" with
      | some children => extract_list children bookmarks
      | none => bookmarks
    else bookmarks
  | none => bookmarks
termination_by sizeOf node
decreasing_by exact jGetArr_sizeOf h

/-- The `for child in children` loop of the source, threading the
accumulator left to right. -/
def extract_list (children : List Json) (bookmarks : List Bookmark) : List Bookmark :=
  match children with
  | [] => bookmarks
  | c :: rest => extract_list rest (extract_bookmarks c bookmarks)
termination_by sizeOf children
decreasing_by
  · simp only [List.cons.sizeOf_spec]; omega
  · simp only [List.cons.sizeOf_spec]; omega

end

mutual

/-- Specification-side depth-first traversal, written from the claim: a
`"url"` node contributes exactly one Bookmark from its `name`/`url`
fields iff both are present as JSON strings, a `"folder"` node
contributes its children's traversals concatenated in array order, any
other node contributes nothing. -/
def dfsSpec (node : Json) : List Bookmark :=
  match jGetStr node "type" with
  | some nodeType =>
    if nodeType = "url" then
      match jGetStr node "name", jGetStr node "url" with
      | some name, some url => [⟨name, url⟩]
      | some _, none => []
      | none, _ => []
    else if nodeType = "folder" then
      match h : jGetArr node "children" with
      | some children => dfsSpecList children
      | none => []
    else []
  | none => []
termination_by sizeOf node
decreasing_by exact jGetArr_sizeOf h

/-- Concatenation of the traversals of a list of nodes, in order. -/
def dfsSpecList (children : List Json) : List Bookmark :=
  match children with
  | [] => []
  | c :: rest => dfsSpec c ++ dfsSpecList rest
termination_by sizeOf children
decreasing_by
  · simp only [List.cons.sizeOf_spec]; omega
  · simp only [List.cons.sizeOf_spec]; omega

end

/-! ## Chromium bookmarks parser (`parse_chromium_bookmarks`) -/

/-- The observable content of the bookmarks file, abstracting the text
layer: the read can fail, the read text can fail JSON parsing, or it
parses to a generic JSON value. -/
inductive FileContent where
  | unreadable
  | invalid
  | json (j : Json)

/-- Model of `parse_chromium_bookmarks`: propagate the read error, then
the JSON parse error; otherwise read the optional `roots` object and walk
the three known roots in order, starting from an empty vector. -/
def parse_chromium_bookmarks (fc : FileContent) : Except BmError (List Bookmark) :=
  match fc with
  | FileContent.unreadable => Except.error BmError.ioError
  | FileContent.invalid => Except.error BmError.formatError
  | FileContent.json j =>
    let bookmarks : List Bookmark := []
    let bookmarks :=
      match jGet j "roots" with
      | none => bookmarks
      | some roots =>
        let bookmarks :=
          match jGet roots "bookmark_bar" with
          | some n => extract_bookmarks n bookmarks
          | none => bookmarks
        let bookmarks :=
          match jGet roots "other" with
          | some n => extract_bookmarks n bookmarks
          | none => bookmarks
        match jGet roots "synced" with
        | some n => extract_bookmarks n bookmarks
        | none => bookmarks
    Except.ok bookmarks

/-- Specification-side traversal of one root key: the depth-first
traversal when the root is present, nothing when absent. -/
def rootTrav (roots : Json) (k : String) : List Bookmark :=
  match jGet roots k with
  | some n => dfsSpec n
  | none => []

/-- Specification-side description of the whole parse on a JSON
document: concatenation of the `bookmark_bar`, `other` and `synced`
traversals, each present root only. -/
def chromiumSpec (j : Json) : List Bookmark :=
  match jGet j "roots" with
  | none => []
  | some roots =>
    rootTrav roots "bookmark_bar" ++ rootTrav roots "other" ++ rootTrav roots "synced"

/-- True when a JSON string value sitting in a `url` field is non-empty
(non-string values never contribute a record, so they are fine). -/
def urlFieldOk : Json → Bool
  | Json.str s => !(s == "")
  | _ => true

mutual

/-- No string value of any `url` field anywhere in the document is the
empty string. -/
def noEmptyUrl : Json → Bool
  | Json.obj fields => noEmptyUrlFields fields
  | Json.arr elems => noEmptyUrlElems elems
  | _ => true

def noEmptyUrlFields : List (String × Json) → Bool
  | [] => true
  | (k, v) :: rest =>
    (if k = "url" then urlFieldOk v else true) && noEmptyUrl v && noEmptyUrlFields rest

def noEmptyUrlElems : List Json → Bool
  | [] => true
  | c :: rest => noEmptyUrl c && noEmptyUrlElems rest

end

/-! ## Gecko profile locator (`find_firefox_profile`) -/

/-- The registry-directory choice of the source: `~/.zen` for Zen,
`~/.mozilla/firefox` for Firefox, early return `None` for every other
identity. -/
def registryDir (h : String) : Browser → Option String
  | Browser.Zen => some (h ++ "/.zen")
  | Browser.Firefox => some (h ++ "/.mozilla/firefox")
  | _ => none

/-- The `for line in content.lines()` loop with the mutable
`default_path` variable: every line starting with `Path=` overwrites the
candidate with the line stripped of all leading `Path=` repetitions. -/
def lastPathCandidate (lines : List String) : Option String :=
  lines.foldl
    (fun acc line =>
      if strStartsWith line "Path=" then some (strTrimPrefixAll line "Path=") else acc)
    none

/-- Model of `find_firefox_profile`: needs HOME, a Firefox/Zen identity,
and a readable `profiles.ini` (`ini = none` covers both a missing file and
a failing read); the result joins the registry directory with the last
recorded `Path=` candidate. -/
def find_firefox_profile (home : Option String) (browser : Browser) (ini : Option String) :
    Option String :=
  match home with
  | none => none
  | some h =>
    match registryDir h browser with
    | none => none
    | some profileDir =>
      match ini with
      | none => none
      | some content =>
        match lastPathCandidate (rustLines content) with
        | some p => some (pathJoin profileDir p)
        | none => none

/-- The remainder of a `Path=` line after the five-character prefix
itself, i.e. one prefix occurrence stripped (the claim's reading). -/
def remainderAfterPath (line : String) : String :=
  String.mk (line.data.drop 5)

/-! ## Gecko store parser (`parse_firefox_bookmarks`) -/

/-- One row produced by the store query (already filtered to
`type = 1 AND url IS NOT NULL`): `none` models a NULL or unreadable
column value as seen by `row.get`. -/
structure GeckoRow where
  title : Option String
  url : Option String
deriving DecidableEq

/-- The observable behaviour of the copy, the SQLite calls and the query
rows for one invocation, plus whether the fixed temp file existed before
the call. -/
structure GeckoEnv where
  placesExists : Bool
  copyFails : Bool
  openFails : Bool
  prepareFails : Bool
  queryFails : Bool
  rows : List GeckoRow
  tempPresent : Bool
deriving DecidableEq

/-- The `query_map` closure followed by `filter_map(|r| r.ok())`: a row
whose title is unreadable gets the placeholder name `"Untitled"`; a row
whose URL is unreadable makes the closure fail and is dropped. -/
def processRows (rows : List GeckoRow) : List Bookmark :=
  rows.filterMap
    (fun r =>
      match r.url with
      | some u => some ⟨r.title.getD "Untitled", u⟩
      | none => none)

/-- Model of `parse_firefox_bookmarks`, returning the result together
with the temp-file presence after the call.  The copy creates the temp
file; the `?` operators on open/prepare/query return before the
`remove_file` call, so only the success path deletes the copy. -/
def parse_firefox_bookmarks (g : GeckoEnv) (profilePath : String) :
    Except BmError (List Bookmark) × Bool :=
  if !g.placesExists then
    (Except.error (BmError.msg ("places.sqlite not found at " ++ pathJoin profilePath "places.sqlite")),
     g.tempPresent)
  else if g.copyFails then (Except.error BmError.copyError, g.tempPresent)
  else if g.openFails then (Except.error BmError.openError, true)
  else if g.prepareFails then (Except.error BmError.prepareError, true)
  else if g.queryFails then (Except.error BmError.queryError, true)
  else (Except.ok (processRows g.rows), false)

/-! ## Orchestrator (`get_bookmarks`) -/

/-- The full environment one extraction run observes. -/
structure Env where
  detected : Browser
  home : Option String
  chromiumFileExists : Bool
  chromiumFile : FileContent
  iniContent : Option String
  gecko : GeckoEnv

/-- Model of `get_bookmarks`: dispatch on the detected identity exactly
as the source's `match` does, with its literal error messages. -/
def get_bookmarks (env : Env) : Except BmError (List Bookmark) :=
  match env.detected with
  | Browser.Chrome | Browser.Brave | Browser.Edge =>
    match bookmark_path env.home env.detected with
    | none => Except.error (BmError.msg "Could not determine bookmark path")
    | some path =>
      if !env.chromiumFileExists then
        Except.error (BmError.msg ("Bookmark file not found at " ++ path))
      else parse_chromium_bookmarks env.chromiumFile
  | Browser.Firefox | Browser.Zen =>
    match find_firefox_profile env.home env.detected env.iniContent with
    | none => Except.error (BmError.msg "Could not find Firefox/Zen profile")
    | some profilePath => (parse_firefox_bookmarks env.gecko profilePath).1
  | Browser.Unknown => Except.error (BmError.msg "Could not detect browser")

/-! ## Helper lemmas -/

theorem extract_spec_aux : ∀ n : Nat,
    (∀ node acc, sizeOf node ≤ n → extract_bookmarks node acc = acc ++ dfsSpec node) ∧
    (∀ l acc, sizeOf l ≤ n → extract_list l acc = acc ++ dfsSpecList l) := by
  intro n
  induction n using Nat.strong_induction_on with
  | _ n ih =>
    constructor
    · intro node acc hsz
      rw [extract_bookmarks, dfsSpec]
      cases htype : jGetStr node "type" with
      | none => simp
      | some nodeType =>
        simp only [htype]
        by_cases hu : nodeType = "url"
        · simp only [hu, if_true]
          cases hn : jGetStr node "name" <;> cases hur : jGetStr node "url" <;> simp
        · by_cases hf : nodeType = "folder"
          · simp only [hu, hf, if_false, if_true]
            cases hc : jGetArr node "children" with
            | none => simp
            | some children =>
              have hlt : sizeOf children < sizeOf node := jGetArr_sizeOf hc
              have h2 := (ih (sizeOf children) (lt_of_lt_of_le hlt hsz)).2 children acc le_rfl
              simp [h2]
          · simp [hu, hf]
    · intro l acc hsz
      cases l with
      | nil => rw [extract_list, dfsSpecList]; simp
      | cons c rest =>
        rw [extract_list, dfsSpecList]
        have hszc : sizeOf c < sizeOf (c :: rest) := by
          simp only [List.cons.sizeOf_spec]; omega
        have hszr : sizeOf rest < sizeOf (c :: rest) := by
          simp only [List.cons.sizeOf_spec]; omega
        have h1 := (ih (sizeOf c) (lt_of_lt_of_le hszc hsz)).1 c acc le_rfl
        have h2 := (ih (sizeOf rest) (lt_of_lt_of_le hszr hsz)).2 rest (extract_bookmarks c acc) le_rfl
        rw [h2, h1, List.append_assoc]

/-- The accumulator-threading walk of the source equals the accumulator
followed by the specification traversal. -/
theorem extract_spec (node : Json) (acc : List Bookmark) :
    extract_bookmarks node acc = acc ++ dfsSpec node :=
  (extract_spec_aux (sizeOf node)).1 node acc le_rfl

theorem extract_list_spec (l : List Json) (acc : List Bookmark) :
    extract_list l acc = acc ++ dfsSpecList l :=
  (extract_spec_aux (sizeOf l)).2 l acc le_rfl

theorem strDataAppend (a b : String) : (a ++ b).data = a.data ++ b.data := rfl

theorem strAppendEmpty (s : String) : s ++ "" = s := by
  cases s with
  | mk l => show String.mk (l ++ []) = String.mk l; rw [List.append_nil]

theorem listPrefixOf_nil (pat : List Char) : listPrefixOf pat [] = pat.isEmpty := by
  cases pat <;> rfl

theorem listPrefixOf_length {pat s : List Char} (h : listPrefixOf pat s = true) :
    pat.length ≤ s.length := by
  induction pat generalizing s with
  | nil => simp
  | cons p ps ih =>
    cases s with
    | nil => simp [listPrefixOf] at h
    | cons c cs =>
      rw [listPrefixOf, Bool.and_eq_true] at h
      have := ih h.2
      simp only [List.length_cons]
      omega

theorem listPrefixOf_append (p r : List Char) : listPrefixOf p (p ++ r) = true := by
  induction p with
  | nil => rfl
  | cons c cs ih => simp [listPrefixOf, ih]

theorem trimAllAux_fuel {pat : List Char} :
    ∀ f1 f2 s, s.length ≤ f1 → s.length ≤ f2 → trimAllAux f1 s pat = trimAllAux f2 s pat := by
  intro f1
  induction f1 with
  | zero =>
    intro f2 s h1 _
    have hs : s = [] := List.length_eq_zero.mp (Nat.le_zero.mp h1)
    subst hs
    cases f2 with
    | zero => rfl
    | succ f2 =>
      rw [trimAllAux, trimAllAux]
      rw [listPrefixOf_nil]
      cases pat <;> simp
  | succ f1 ih =>
    intro f2 s h1 h2
    cases f2 with
    | zero =>
      have hs : s = [] := List.length_eq_zero.mp (Nat.le_zero.mp h2)
      subst hs
      rw [trimAllAux, trimAllAux, listPrefixOf_nil]
      cases pat <;> simp
    | succ f2 =>
      rw [trimAllAux, trimAllAux]
      by_cases hc : (!pat.isEmpty && listPrefixOf pat s) = true
      · rw [if_pos hc, if_pos hc]
        rw [Bool.and_eq_true] at hc
        have hpat : pat.length ≥ 1 := by
          cases pat with
          | nil => simp at hc
          | cons _ _ => simp
        have hps : pat.length ≤ s.length := listPrefixOf_length hc.2
        have hd : (s.drop pat.length).length = s.length - pat.length := List.length_drop _ _
        apply ih
        · omega
        · omega
      · rw [if_neg hc, if_neg hc]

theorem strTrimPrefixAll_absorb (s : String) :
    strTrimPrefixAll ("Path=" ++ s) "Path=" = strTrimPrefixAll s "Path=" := by
  rw [strTrimPrefixAll, strTrimPrefixAll]
  rw [strDataAppend]
  have hlen : ("Path=".data ++ s.data).length = 5 + s.data.length := by
    simp [List.length_append]; omega
  rw [hlen]
  show String.mk (trimAllAux (5 + s.data.length) ("Path=".data ++ s.data) "Path=".data) = _
  have : 5 + s.data.length = Nat.succ (4 + s.data.length) := by omega
  rw [this, trimAllAux]
  rw [if_pos]
  · have hd : ("Path=".data ++ s.data).drop "Path=".data.length = s.data := List.drop_left _ _
    rw [hd]
    congr 1
    apply trimAllAux_fuel
    · omega
    · omega
  · rw [Bool.and_eq_true]
    exact ⟨rfl, listPrefixOf_append _ _⟩

theorem foldl_lastPath (lines : List String) (acc : Option String) :
    lines.foldl
        (fun acc line =>
          if strStartsWith line "Path=" then some (strTrimPrefixAll line "Path=") else acc)
        acc =
      match (lines.filter (fun l => strStartsWith l "Path=")).getLast? with
      | some line => some (strTrimPrefixAll line "Path=")
      | none => acc := by
  induction lines generalizing acc with
  | nil => rfl
  | cons l rest ih =>
    simp only [List.foldl_cons, List.filter_cons]
    cases h : strStartsWith l "Path=" with
    | false =>
      simp only [h, Bool.false_eq_true, if_neg, ite_false]
      exact ih acc
    | true =>
      simp only [h, ite_true]
      rw [ih]
      cases hf : rest.filter (fun l => strStartsWith l "Path=") with
      | nil => simp
      | cons y ys =>
        cases hg : (y :: ys).getLast? with
        | none => simp at hg
        | some z => simp [hg]

theorem lastPathCandidate_eq (lines : List String) :
    lastPathCandidate lines =
      ((lines.filter (fun l => strStartsWith l "Path=")).getLast?).map
        (fun line => strTrimPrefixAll line "Path=") := by
  rw [lastPathCandidate, foldl_lastPath]
  cases (lines.filter (fun l => strStartsWith l "Path=")).getLast? <;> simp

theorem find_profile_eq (h : String) (b : Browser) (dir : String) (content : String)
    (hdir : registryDir h b = some dir) :
    find_firefox_profile (some h) b (some content) =
      (((rustLines content).filter (fun l => strStartsWith l "Path=")).getLast?).map
        (fun line => pathJoin dir (strTrimPrefixAll line "Path=")) := by
  simp only [find_firefox_profile, hdir, lastPathCandidate_eq]
  cases ((rustLines content).filter (fun l => strStartsWith l "Path=")).getLast? <;> simp

theorem noEmptyUrlFields_lookup {fields : List (String × Json)} {k : String} {v : Json}
    (hall : noEmptyUrlFields fields = true) (h : lookupField fields k = some v) :
    noEmptyUrl v = true := by
  induction fields with
  | nil => simp [lookupField] at h
  | cons p rest ih =>
    obtain ⟨k', v'⟩ := p
    rw [noEmptyUrlFields] at hall
    simp only [Bool.and_eq_true] at hall
    rw [lookupField] at h
    split at h
    · cases h; exact hall.1.2
    · exact ih hall.2 h

theorem noEmptyUrlFields_url {fields : List (String × Json)} {s : String}
    (hall : noEmptyUrlFields fields = true) (h : lookupField fields "url" = some (Json.str s)) :
    s ≠ "" := by
  induction fields with
  | nil => simp [lookupField] at h
  | cons p rest ih =>
    obtain ⟨k', v'⟩ := p
    rw [noEmptyUrlFields] at hall
    simp only [Bool.and_eq_true] at hall
    rw [lookupField] at h
    split at h
    · next heq =>
      cases h
      have hk := hall.1.1
      rw [if_pos heq] at hk
      rw [urlFieldOk] at hk
      simpa using hk
    · exact ih hall.2 h

theorem noEmptyUrl_jGet {node : Json} {k : String} {v : Json}
    (hall : noEmptyUrl node = true) (h : jGet node k = some v) : noEmptyUrl v = true := by
  cases node <;> simp [jGet] at h
  case obj fields =>
    rw [noEmptyUrl] at hall
    exact noEmptyUrlFields_lookup hall h

theorem noEmptyUrl_url {node : Json} {s : String}
    (hall : noEmptyUrl node = true) (h : jGetStr node "url" = some s) : s ≠ "" := by
  rw [jGetStr] at h
  split at h
  · next heq =>
    cases h
    cases node <;> simp [jGet] at heq
    case obj fields =>
      rw [noEmptyUrl] at hall
      exact noEmptyUrlFields_url hall heq
  · cases h

theorem noEmptyUrlElems_mem {l : List Json} {c : Json}
    (hall : noEmptyUrlElems l = true) (h : c ∈ l) : noEmptyUrl c = true := by
  induction l with
  | nil => cases h
  | cons x rest ih =>
    rw [noEmptyUrlElems, Bool.and_eq_true] at hall
    cases h with
    | head => exact hall.1
    | tail _ hm => exact ih hall.2 hm

theorem noEmptyUrl_children {node : Json} {l : List Json}
    (hall : noEmptyUrl node = true) (h : jGetArr node "children" = some l) :
    noEmptyUrlElems l = true := by
  rw [jGetArr] at h
  split at h
  · next heq =>
    cases h
    have := noEmptyUrl_jGet hall heq
    rwa [noEmptyUrl] at this
  · cases h

theorem dfsSpec_nonempty_aux : ∀ n : Nat,
    (∀ node, sizeOf node ≤ n → noEmptyUrl node = true → ∀ b ∈ dfsSpec node, b.url ≠ "") ∧
    (∀ l, sizeOf l ≤ n → noEmptyUrlElems l = true → ∀ b ∈ dfsSpecList l, b.url ≠ "") := by
  intro n
  induction n using Nat.strong_induction_on with
  | _ n ih =>
    constructor
    · intro node hsz hall b hb
      rw [dfsSpec] at hb
      cases htype : jGetStr node "type" with
      | none => simp only [htype] at hb; simp at hb
      | some nodeType =>
        simp only [htype] at hb
        by_cases hu : nodeType = "url"
        · simp only [if_pos hu] at hb
          cases hn : jGetStr node "name" with
          | none => simp only [hn] at hb; simp at hb
          | some name =>
            cases hur : jGetStr node "url" with
            | none => simp only [hn, hur] at hb; simp at hb
            | some url =>
              simp only [hn, hur] at hb
              simp at hb
              rw [hb]
              exact noEmptyUrl_url hall hur
        · simp only [if_neg hu] at hb
          by_cases hf : nodeType = "folder"
          · simp only [if_pos hf] at hb
            split at hb
            next children heq =>
              have hlt : sizeOf children < sizeOf node := jGetArr_sizeOf heq
              exact (ih (sizeOf children) (lt_of_lt_of_le hlt hsz)).2 children le_rfl
                (noEmptyUrl_children hall heq) b hb
            next heq => simp at hb
          · simp only [if_neg hf] at hb; simp at hb
    · intro l hsz hall b hb
      cases l with
      | nil => rw [dfsSpecList] at hb; simp at hb
      | cons c rest =>
        rw [dfsSpecList] at hb
        rw [noEmptyUrlElems, Bool.and_eq_true] at hall
        have hszc : sizeOf c < sizeOf (c :: rest) := by
          simp only [List.cons.sizeOf_spec]; omega
        have hszr : sizeOf rest < sizeOf (c :: rest) := by
          simp only [List.cons.sizeOf_spec]; omega
        rcases List.mem_append.mp hb with hmem | hmem
        · exact (ih (sizeOf c) (lt_of_lt_of_le hszc hsz)).1 c le_rfl hall.1 b hmem
        · exact (ih (sizeOf rest) (lt_of_lt_of_le hszr hsz)).2 rest le_rfl hall.2 b hmem

theorem dfsSpec_nonempty {node : Json} (hall : noEmptyUrl node = true) :
    ∀ b ∈ dfsSpec node, b.url ≠ "" :=
  (dfsSpec_nonempty_aux (sizeOf node)).1 node le_rfl hall

theorem parse_chromium_json_eq (j : Json) :
    parse_chromium_bookmarks (FileContent.json j) = Except.ok (chromiumSpec j) := by
  rw [parse_chromium_bookmarks, chromiumSpec]
  cases hr : jGet j "roots" with
  | none => simp
  | some roots =>
    cases hb : jGet roots "bookmark_bar" <;> cases ho : jGet roots "other" <;>
      cases hs : jGet roots "synced" <;>
        simp [rootTrav, hb, ho, hs, extract_spec, List.append_assoc]

theorem rootTrav_nonempty {roots : Json} {k : String} (hall : noEmptyUrl roots = true) :
    ∀ b ∈ rootTrav roots k, b.url ≠ "" := by
  intro b hb
  rw [rootTrav] at hb
  cases hk : jGet roots k with
  | none => simp only [hk] at hb; simp at hb
  | some n =>
    simp only [hk] at hb
    exact dfsSpec_nonempty (noEmptyUrl_jGet hall hk) b hb

theorem chromiumSpec_nonempty {j : Json} (hall : noEmptyUrl j = true) :
    ∀ b ∈ chromiumSpec j, b.url ≠ "" := by
  intro b hb
  rw [chromiumSpec] at hb
  cases hr : jGet j "roots" with
  | none => simp only [hr] at hb; simp at hb
  | some roots =>
    simp only [hr] at hb
    have hroots := noEmptyUrl_jGet hall hr
    rcases List.mem_append.mp hb with hb1 | hb3
    · rcases List.mem_append.mp hb1 with hb1 | hb2
      · exact rootTrav_nonempty hroots b hb1
      · exact rootTrav_nonempty hroots b hb2
    · exact rootTrav_nonempty hroots b hb3

theorem processRows_untitled {rows : List GeckoRow} {r : GeckoRow} {u : String}
    (hmem : r ∈ rows) (hu : r.url = some u) (ht : r.title = none) :
    Bookmark.mk "Untitled" u ∈ processRows rows := by
  rw [processRows]
  exact List.mem_filterMap.mpr ⟨r, hmem, by simp [hu, ht]⟩

theorem processRows_skip (r : GeckoRow) (h : r.url = none) (rows : List GeckoRow) :
    processRows (r :: rows) = processRows rows := by
  simp [processRows, List.filterMap_cons, h]

theorem processRows_length (rows : List GeckoRow) :
    (processRows rows).length = rows.length - rows.countP (fun r => r.url.isNone) := by
  induction rows with
  | nil => rfl
  | cons r rest ih =>
    have hle : rest.countP (fun r => r.url.isNone) ≤ rest.length := List.countP_le_length _
    cases hr : r.url with
    | none =>
      simp only [processRows, List.filterMap_cons, hr, List.countP_cons, List.length_cons] at *
      simp [hr, ih]
    | some u =>
      simp only [processRows, List.filterMap_cons, hr, List.countP_cons, List.length_cons] at *
      simp [hr, ih]
      omega

theorem processRows_nonempty {rows : List GeckoRow}
    (hall : ∀ r ∈ rows, r.url ≠ some "") : ∀ b ∈ processRows rows, b.url ≠ "" := by
  intro b hb
  rcases List.mem_filterMap.mp hb with ⟨r, hr, hfr⟩
  cases hu : r.url with
  | none => rw [hu] at hfr; simp at hfr
  | some u =>
    rw [hu] at hfr
    simp only [Option.some.injEq] at hfr
    have hne : u ≠ "" := fun he => hall r hr (by rw [hu, he])
    rw [← hfr]
    exact hne

/-! ## Claim theorems -/

/-- Claim C3 (confirmed): for every identifier string, detection equals
the first-token-match specification over the priority list zen, chrome,
firefox, brave, edge on the lowercased input, and any input containing
both "zen" and "chrome" classifies as Zen. -/
theorem detect_token_priority : ∀ s : String,
    detectFromIdent s = classifySpec s ∧
    (strContains (lowerStr s) "zen" = true → strContains (lowerStr s) "chrome" = true →
      detectFromIdent s = Browser.Zen) := by
  intro s
  constructor
  · rw [detectFromIdent, classifySpec, tokenPriority]
    cases h1 : strContains (lowerStr s) "zen" <;>
      cases h2 : strContains (lowerStr s) "chrome" <;>
        cases h3 : strContains (lowerStr s) "firefox" <;>
          cases h4 : strContains (lowerStr s) "brave" <;>
            cases h5 : strContains (lowerStr s) "edge" <;>
              simp [List.find?, h1, h2, h3, h4, h5]
  · intro hz _
    rw [detectFromIdent]
    simp [hz]

/-- Witness for C3 at a concrete input containing both tokens. -/
theorem detect_token_priority_witness : detectFromIdent "ZenChrome" = Browser.Zen :=
  (detect_token_priority "ZenChrome").2 (by decide) (by decide)

/-- Claim C4 counterexample: an outcome whose exit status is non-zero but
whose stdout contains "chrome" classifies as Chrome, not Unknown — the
exit status is never consulted. -/
theorem detect_ignores_exit_status_cex :
    detect (Except.ok (CmdOutput.mk "chrome" 1)) = Browser.Chrome ∧
    (CmdOutput.mk "chrome" 1).status ≠ 0 ∧ Browser.Chrome ≠ Browser.Unknown := by
  refine ⟨by decide, by decide, by decide⟩

/-- Claim C4 amended: a spawn or I/O failure of the command (the `Err`
outcome) yields Unknown, and detection never produces an error value: any
captured output, regardless of exit status, is classified purely from its
stdout. -/
theorem detect_failure_handling :
    (∀ e : Unit, detect (Except.error e) = Browser.Unknown) ∧
    (∀ o : CmdOutput, detect (Except.ok o) = detectFromIdent o.stdout) :=
  ⟨fun _ => rfl, fun _ => rfl⟩

/-- Claim C9 (confirmed): the Unknown identity makes the orchestrator
fail with the "Could not detect browser" error for every environment, so
no parsing outcome can influence the result and no partial list is
produced. -/
theorem unknown_browser_terminal : ∀ env : Env, env.detected = Browser.Unknown →
    get_bookmarks env = Except.error (BmError.msg "Could not detect browser") := by
  intro env h
  rw [get_bookmarks, h]

/-- Witness for C9 at a concrete environment. -/
theorem unknown_browser_terminal_witness :
    get_bookmarks (Env.mk Browser.Unknown none false FileContent.unreadable none
        (GeckoEnv.mk false false false false false [] false)) =
      Except.error (BmError.msg "Could not detect browser") :=
  unknown_browser_terminal _ rfl

/-- Claim C2 counterexample: an invocation that gets past the copy and
then fails at `Connection::open` returns the store error with the
temporary copy still present. -/
theorem temp_copy_left_on_error_cex :
    (parse_firefox_bookmarks (GeckoEnv.mk true false true false false [] false) "/p").1 =
        Except.error BmError.openError ∧
    (parse_firefox_bookmarks (GeckoEnv.mk true false true false false [] false) "/p").2 = true :=
  ⟨rfl, rfl⟩

/-- Claim C2 amended: past the copy, the temporary file is removed before
returning on the success path only; on an open/prepare/query failure the
function returns the error with the copy left in place. -/
theorem temp_copy_cleanup_paths : ∀ (g : GeckoEnv) (p : String),
    g.placesExists = true → g.copyFails = false →
    ((g.openFails = false ∧ g.prepareFails = false ∧ g.queryFails = false →
        parse_firefox_bookmarks g p = (Except.ok (processRows g.rows), false)) ∧
      (g.openFails = true ∨ g.prepareFails = true ∨ g.queryFails = true →
        (parse_firefox_bookmarks g p).2 = true ∧
          ∃ e, (parse_firefox_bookmarks g p).1 = Except.error e)) := by
  intro g p hex hcopy
  obtain ⟨pe, cf, ofl, pf, qf, rows, tp⟩ := g
  simp only at hex hcopy
  subst hex
  subst hcopy
  cases ofl <;> cases pf <;> cases qf <;>
    simp [parse_firefox_bookmarks]

/-- Witness for C2's amended theorem on the success path. -/
theorem temp_copy_cleanup_paths_witness :
    parse_firefox_bookmarks (GeckoEnv.mk true false false false false [] false) "/p" =
      (Except.ok [], false) :=
  (temp_copy_cleanup_paths (GeckoEnv.mk true false false false false [] false) "/p" rfl rfl).1
    ⟨rfl, rfl, rfl⟩

/-- Claim C5 (confirmed): syntactically valid JSON without a top-level
`roots` key (or with roots whose three known entries are all absent)
parses to the empty list successfully, and the only failing inputs are an
unreadable file and syntactically invalid JSON. -/
theorem chromium_missing_roots_graceful :
    (∀ j : Json, jGet j "roots" = none →
        parse_chromium_bookmarks (FileContent.json j) = Except.ok []) ∧
    (∀ j roots : Json, jGet j "roots" = some roots →
        jGet roots "bookmark_bar" = none → jGet roots "other" = none →
        jGet roots "synced" = none →
        parse_chromium_bookmarks (FileContent.json j) = Except.ok []) ∧
    (∀ (fc : FileContent) (e : BmError), parse_chromium_bookmarks fc = Except.error e →
        fc = FileContent.unreadable ∨ fc = FileContent.invalid) := by
  refine ⟨?_, ?_, ?_⟩
  · intro j h
    rw [parse_chromium_bookmarks]
    simp [h]
  · intro j roots h hb ho hs
    rw [parse_chromium_bookmarks]
    simp [h, hb, ho, hs]
  · intro fc e h
    cases fc with
    | unreadable => exact Or.inl rfl
    | invalid => exact Or.inr rfl
    | json j => rw [parse_chromium_bookmarks] at h; simp at h

/-- Witness for C5: a roots-less object parses to the empty list, and the
unreadable input is one of the two failing shapes. -/
theorem chromium_missing_roots_graceful_witness :
    parse_chromium_bookmarks (FileContent.json (Json.obj [])) = Except.ok [] ∧
    (FileContent.unreadable = FileContent.unreadable ∨
      FileContent.unreadable = FileContent.invalid) :=
  ⟨chromium_missing_roots_graceful.1 (Json.obj []) rfl,
   chromium_missing_roots_graceful.2.2 FileContent.unreadable BmError.ioError rfl⟩

/-- Claim C6 (confirmed): on every JSON document the parser's output is
the concatenation of the depth-first traversals of the present roots
`bookmark_bar`, `other`, `synced` in that order, with url nodes
contributing one record iff both `name` and `url` are strings, folder
nodes contributing their children's traversal in array order, and every
other node contributing nothing. -/
theorem chromium_parse_is_root_concat (j : Json) :
    parse_chromium_bookmarks (FileContent.json j) = Except.ok (chromiumSpec j) :=
  parse_chromium_json_eq j

/-- The concrete document refuting claim C1: one url node whose `url`
field is present but is the empty string. -/
def cexEmptyUrlJson : Json :=
  Json.obj [("roots", Json.obj [("bookmark_bar",
    Json.obj [("type", Json.str "url"), ("name", Json.str "A"), ("url", Json.str "")])])]

/-- Claim C1 counterexample: a successful Chromium parse can return a
Bookmark whose url is the empty string, so the non-empty-url invariant
fails as stated. -/
theorem chromium_empty_url_cex :
    parse_chromium_bookmarks (FileContent.json cexEmptyUrlJson) =
        Except.ok [Bookmark.mk "A" ""] ∧
    (Bookmark.mk "A" "").url = "" := by
  constructor
  · simp [parse_chromium_bookmarks, cexEmptyUrlJson, jGet, lookupField, jGetStr, jGetArr,
      extract_bookmarks, extract_list]
  · rfl

/-- Claim C1 amended: every Bookmark's url is taken from a URL value
present in the source and is non-empty whenever the source contains no
empty-string url value (Chromium: no `url` field holding `""`; Gecko: no
row whose url column is `""`); an empty list remains a valid success
value, never an error. -/
theorem url_from_source_invariant :
    (∀ (j : Json) (bs : List Bookmark),
        parse_chromium_bookmarks (FileContent.json j) = Except.ok bs →
        noEmptyUrl j = true → ∀ b ∈ bs, b.url ≠ "") ∧
    (∀ (g : GeckoEnv) (p : String) (bs : List Bookmark),
        (parse_firefox_bookmarks g p).1 = Except.ok bs →
        (∀ r ∈ g.rows, r.url ≠ some "") → ∀ b ∈ bs, b.url ≠ "") ∧
    parse_chromium_bookmarks (FileContent.json (Json.obj [])) = Except.ok [] := by
  refine ⟨?_, ?_, rfl⟩
  · intro j bs hpar hall b hb
    rw [parse_chromium_json_eq] at hpar
    simp only [Except.ok.injEq] at hpar
    rw [← hpar] at hb
    exact chromiumSpec_nonempty hall b hb
  · intro g p bs hpar hall b hb
    obtain ⟨pe, cf, ofl, pf, qf, rows, tp⟩ := g
    simp only at hall
    cases pe <;> cases cf <;> cases ofl <;> cases pf <;> cases qf <;>
      simp [parse_firefox_bookmarks] at hpar
    rw [← hpar] at hb
    exact processRows_nonempty hall b hb

/-- Witness for C1's amended theorem via the Gecko branch at one row. -/
theorem url_from_source_invariant_witness :
    (Bookmark.mk "t" "u").url ≠ "" :=
  url_from_source_invariant.2.1 (GeckoEnv.mk true false false false false
      [GeckoRow.mk (some "t") (some "u")] false) "/p" [Bookmark.mk "t" "u"] rfl
    (by decide) (Bookmark.mk "t" "u") (by decide)

/-- Claim C7 counterexample: on the single line `Path=Path=x` the locator
resolves to the registry directory joined with `x`, not with the
remainder `Path=x` of the line after the prefix, because
`trim_start_matches` strips every leading repetition of `Path=`. -/
theorem profile_path_remainder_cex :
    find_firefox_profile (some "/h") Browser.Firefox (some "Path=Path=x") =
        some "/h/.mozilla/firefox/x" ∧
    remainderAfterPath "Path=Path=x" = "Path=x" ∧
    find_firefox_profile (some "/h") Browser.Firefox (some "Path=Path=x") ≠
      some (pathJoin "/h/.mozilla/firefox" (remainderAfterPath "Path=Path=x")) := by
  refine ⟨rfl, rfl, by decide⟩

/-- Claim C7 amended: for a Firefox/Zen identity with a home directory
and readable registry file, the locator resolves to the registry
directory joined with the last `Path=` line stripped of every leading
`Path=` repetition (later lines overwrite earlier ones; no other key is
consulted); with no `Path=` line, a missing registry file, a missing
home, or any other identity it yields absence. -/
theorem profile_last_path_wins :
    (∀ (h : String) (b : Browser) (dir content : String), registryDir h b = some dir →
        find_firefox_profile (some h) b (some content) =
          (((rustLines content).filter (fun l => strStartsWith l "Path=")).getLast?).map
            (fun line => pathJoin dir (strTrimPrefixAll line "Path="))) ∧
    (∀ (h : String) (b : Browser) (ini : Option String), registryDir h b = none →
        find_firefox_profile (some h) b ini = none) ∧
    (∀ (h : String) (b : Browser), find_firefox_profile (some h) b none = none) ∧
    (∀ (b : Browser) (ini : Option String), find_firefox_profile none b ini = none) := by
  refine ⟨?_, ?_, ?_, ?_⟩
  · intro h b dir content hdir
    exact find_profile_eq h b dir content hdir
  · intro h b ini hdir
    rw [find_firefox_profile, hdir]
  · intro h b
    rw [find_firefox_profile]
    cases hr : registryDir h b <;> rfl
  · intro b ini
    rfl

/-- Witness for C7's amended theorem: two Path lines, the later wins. -/
theorem profile_last_path_wins_witness :
    find_firefox_profile (some "/h") Browser.Firefox (some "Path=p1\nPath=p2") =
      some "/h/.mozilla/firefox/p2" := by
  have h := profile_last_path_wins.1 "/h" Browser.Firefox "/h/.mozilla/firefox"
    "Path=p1\nPath=p2" rfl
  simpa using h

/-- Claim C8 (confirmed): over the qualifying rows of the store query, a
row with null/unreadable title yields the name "Untitled", a row with a
missing/unreadable url is skipped individually, and the result length is
the number of qualifying rows minus the skipped ones. -/
theorem gecko_row_mapping : ∀ rows : List GeckoRow,
    (∀ (r : GeckoRow) (u : String), r ∈ rows → r.url = some u → r.title = none →
        Bookmark.mk "Untitled" u ∈ processRows rows) ∧
    (∀ r : GeckoRow, r.url = none → processRows (r :: rows) = processRows rows) ∧
    (processRows rows).length = rows.length - rows.countP (fun r => r.url.isNone) := by
  intro rows
  refine ⟨?_, ?_, processRows_length rows⟩
  · intro r u hmem hu ht
    exact processRows_untitled hmem hu ht
  · intro r h
    exact processRows_skip r h rows

/-- Witness for C8 at concrete rows. -/
theorem gecko_row_mapping_witness :
    Bookmark.mk "Untitled" "u" ∈ processRows [GeckoRow.mk none (some "u")] :=
  (gecko_row_mapping [GeckoRow.mk none (some "u")]).1 (GeckoRow.mk none (some "u")) "u"
    (by simp) rfl rfl

/-- Claim C10 (confirmed): the candidate recorded from a matching line
has every leading repetition of `Path=` stripped (`Path=Path=x` records
`x`), and the line consisting of the prefix alone records the empty
string, so the locator resolves to the registry directory joined with the
empty string — the registry directory path itself with a trailing
separator — rather than absence. -/
theorem trim_all_path_prefix :
    (∀ s : String, strTrimPrefixAll ("Path=" ++ s) "Path=" = strTrimPrefixAll s "Path=") ∧
    (∀ h : String, find_firefox_profile (some h) Browser.Firefox (some "Path=Path=x") =
        some (pathJoin (h ++ "/.mozilla/firefox") "x")) ∧
    (∀ h : String, find_firefox_profile (some h) Browser.Firefox (some "Path=") =
        some (pathJoin (h ++ "/.mozilla/firefox") "")) ∧
    (∀ h : String, pathJoin (h ++ "/.mozilla/firefox") "" = h ++ "/.mozilla/firefox" ++ "/") := by
  refine ⟨strTrimPrefixAll_absorb, fun h => rfl, fun h => rfl, ?_⟩
  intro h
  rw [pathJoin]
  rw [if_neg (by decide)]
  rw [if_neg ?hne]
  case hne =>
    rw [strDataAppend]
    simp
  rw [if_neg ?hlast]
  case hlast =>
    rw [strDataAppend]
    rw [List.getLast?_append]
    have h1 : "/.mozilla/firefox".data.getLast? = some 'x' := rfl
    rw [h1, Option.or_some]
    decide
  rw [strAppendEmpty]
end BookmarkAnalyzer
